import Mathlib

/-!
Verification of the PolyConvert-Desktop conversion core.

Python strings are modelled as `List Char`, so all lengths and slices count
characters (code points), not bytes.  Python slice `text[a:b]` (with
`b = min (length text) (a + k)`) is `(text.drop a).take k`.
-/

set_option maxHeartbeats 1000000

/-- The while-loop of `chunk_text` in `src/ufc/plugins/writers/txt_writer.py`.
`fuel` bounds the number of iterations; `text.length + 1` is always enough
because `start` strictly increases while `start < text.length` (the clamped
overlap is smaller than `chunkSize`). -/
def chunkLoop (text : List Char) (chunkSize overlap : Nat) : Nat → Nat → List (List Char)
  | 0, _ => []
  | fuel + 1, start =>
    if start < text.length then
      let c := (text.drop start).take chunkSize
      if start + chunkSize < text.length then
        c :: chunkLoop text chunkSize overlap fuel (start + chunkSize - overlap)
      else [c]
    else []

/-- The function `chunk_text(text, chunk_size, overlap)` of `txt_writer.py`:
return `[text]` when `chunk_size <= 0`, otherwise clamp `overlap` into
`[0, chunk_size - 1]` (to `0` when `chunk_size == 1`) and slice the text into
windows of `chunk_size` characters advancing by `chunk_size - overlap`. -/
def chunk_text (text : List Char) (chunk_size overlap : Int) : List (List Char) :=
  if chunk_size ≤ 0 then [text]
  else
    chunkLoop text chunk_size.toNat
      (if 1 < chunk_size then max 0 (min overlap (chunk_size - 1)) else 0).toNat
      (text.length + 1) 0

/-- Reassembly of a chunk sequence: keep the first chunk whole and drop the
first `overlap` characters of every later chunk, then concatenate. -/
def rejoin (overlap : Nat) : List (List Char) → List Char
  | [] => []
  | c :: rest => c ++ (rest.map (List.drop overlap)).flatten

/-- One-step unfolding of `chunkLoop` at positive fuel. -/
lemma chunkLoop_succ (text : List Char) (cs ov fuel start : Nat) :
    chunkLoop text cs ov (fuel + 1) start
      = if start < text.length then
          (if start + cs < text.length then
            (text.drop start).take cs :: chunkLoop text cs ov fuel (start + cs - ov)
          else [(text.drop start).take cs])
        else [] := rfl

/-- Every chunk emitted by the loop is a `take chunkSize`, hence at most
`chunkSize` characters long. -/
lemma chunkLoop_length_le (text : List Char) (cs ov : Nat) :
    ∀ fuel start c, c ∈ chunkLoop text cs ov fuel start → c.length ≤ cs := by
  intro fuel
  induction fuel with
  | zero => intro start c hc; simp [chunkLoop] at hc
  | succ fuel ih =>
    intro start c hc
    rw [chunkLoop_succ] at hc
    split at hc
    · split at hc
      · rcases List.mem_cons.mp hc with h | h
        · subst h; exact List.length_take_le cs _
        · exact ih _ _ h
      · rcases List.mem_singleton.mp hc with rfl
        exact List.length_take_le cs _
    · simp at hc

/-- Dropping `overlap` characters from every chunk of the loop and
concatenating yields the text from position `start + overlap` on, provided
the fuel is sufficient and the overlap is smaller than the window. -/
lemma chunkLoop_dropFlatten (text : List Char) (cs ov : Nat) (hov : ov < cs) :
    ∀ fuel start, text.length ≤ fuel + start →
      ((chunkLoop text cs ov fuel start).map (List.drop ov)).flatten
        = text.drop (start + ov) := by
  intro fuel
  induction fuel with
  | zero =>
    intro start hle
    simp only [chunkLoop, List.map_nil, List.flatten_nil]
    rw [eq_comm, List.drop_eq_nil_iff]
    omega
  | succ fuel ih =>
    intro start hle
    rw [chunkLoop_succ]
    split
    · split
      next hrec =>
        rw [List.map_cons, List.flatten_cons, ih (start + cs - ov) (by omega)]
        rw [List.drop_take, List.drop_drop]
        have h2 : text.drop (start + cs - ov + ov)
            = (text.drop (start + ov)).drop (cs - ov) := by
          rw [List.drop_drop]; congr 1; omega
        rw [h2, List.take_append_drop]
      next hrec =>
        simp only [List.map_cons, List.map_nil, List.flatten_cons, List.flatten_nil,
          List.append_nil]
        rw [List.take_of_length_le (by rw [List.length_drop]; omega), List.drop_drop]
    · next hs =>
        simp only [List.map_nil, List.flatten_nil]
        rw [eq_comm, List.drop_eq_nil_iff]
        omega

/-- The last chunk the loop emits is the suffix of the text starting at the
final window position, hence it ends exactly at the text's last character. -/
lemma chunkLoop_getLast (text : List Char) (cs ov : Nat) (hov : ov < cs) :
    ∀ fuel start, text.length ≤ fuel + start → start < text.length →
      ∃ k, k < text.length ∧
        (chunkLoop text cs ov fuel start).getLast? = some (text.drop k) := by
  intro fuel
  induction fuel with
  | zero => intro start hle hs; omega
  | succ fuel ih =>
    intro start hle hs
    rw [chunkLoop_succ, if_pos hs]
    split
    next hrec =>
      obtain ⟨k, hk, hlast⟩ := ih (start + cs - ov) (by omega) (by omega)
      refine ⟨k, hk, ?_⟩
      rcases hrest : chunkLoop text cs ov fuel (start + cs - ov) with _ | ⟨b, bs⟩
      · rw [hrest] at hlast; simp at hlast
      · rw [hrest] at hlast
        rw [List.getLast?_cons_cons, hlast]
    next hrec =>
      refine ⟨start, hs, ?_⟩
      rw [List.take_of_length_le (by rw [List.length_drop]; omega)]
      rfl

/-- The clamped overlap used by `chunk_text` equals the given overlap whenever
`0 ≤ overlap < chunk_size`. -/
lemma chunk_text_clamp (chunk_size overlap : Int) (hcs : 0 < chunk_size)
    (hov0 : 0 ≤ overlap) (hov : overlap < chunk_size) :
    (if 1 < chunk_size then max 0 (min overlap (chunk_size - 1)) else 0) = overlap := by
  split <;> omega

/-- C1: for every text, every `chunk_size > 0` and every
`0 ≤ overlap < chunk_size`, `chunk_text` returns chunks of at most
`chunk_size` characters, its last chunk (when the text is nonempty) is the
suffix of the text starting at some position `k < length`, i.e. it ends
exactly at the text's final character, and keeping the first chunk whole
while dropping the first `overlap` characters of every later chunk
reconstructs the text exactly. -/
theorem chunk_text_spec (text : List Char) (chunk_size overlap : Int)
    (hcs : 0 < chunk_size) (hov0 : 0 ≤ overlap) (hov : overlap < chunk_size) :
    (∀ c ∈ chunk_text text chunk_size overlap, (c.length : Int) ≤ chunk_size) ∧
    (text ≠ [] → ∃ k, k < text.length ∧
      (chunk_text text chunk_size overlap).getLast? = some (text.drop k)) ∧
    rejoin overlap.toNat (chunk_text text chunk_size overlap) = text := by
  have hnotle : ¬ chunk_size ≤ 0 := by omega
  have hclamp := chunk_text_clamp chunk_size overlap hcs hov0 hov
  have hunfold : chunk_text text chunk_size overlap
      = chunkLoop text chunk_size.toNat overlap.toNat (text.length + 1) 0 := by
    rw [chunk_text, if_neg hnotle, hclamp]
  have hovcs : overlap.toNat < chunk_size.toNat := by omega
  refine ⟨?_, ?_, ?_⟩
  · intro c hc
    rw [hunfold] at hc
    have := chunkLoop_length_le text chunk_size.toNat overlap.toNat _ _ c hc
    omega
  · intro hne
    have hpos : 0 < text.length := List.length_pos.mpr hne
    rw [hunfold]
    exact chunkLoop_getLast text chunk_size.toNat overlap.toNat hovcs (text.length + 1) 0
      (by omega) hpos
  · rw [hunfold, chunkLoop_succ]
    split
    next hpos =>
      split
      next hrec =>
        rw [rejoin, chunkLoop_dropFlatten text chunk_size.toNat overlap.toNat hovcs
          text.length (0 + chunk_size.toNat - overlap.toNat) (by omega)]
        rw [List.drop_zero]
        have : 0 + chunk_size.toNat - overlap.toNat + overlap.toNat = chunk_size.toNat := by
          omega
        rw [this, List.take_append_drop]
      next hrec =>
        rw [rejoin]
        simp only [List.map_nil, List.flatten_nil, List.append_nil, List.drop_zero]
        rw [List.take_of_length_le (by omega)]
    next hpos =>
      have : text = [] := by
        rcases text with _ | ⟨a, t⟩
        · rfl
        · simp at hpos
      rw [this]
      rfl

/-- C1 witness: the specification instantiated at a concrete text, chunk
size and overlap. -/
theorem chunk_text_spec_witness :
    ((0 : Int) < 3 ∧ (0 : Int) ≤ 1 ∧ (1 : Int) < 3) ∧
      rejoin (1 : Int).toNat (chunk_text "abcdefgh".data 3 1) = "abcdefgh".data :=
  ⟨by decide, (chunk_text_spec "abcdefgh".data 3 1 (by decide) (by decide) (by decide)).2.2⟩

/-- C2 counterexample: on a text of length 16, `chunk_text` with
`chunk_size = 5` and `overlap = 1` produces chunks of lengths `[5, 5, 5, 4]`,
not `[5, 5, 5, 1]` as the claim states: the windows start at 0, 4, 8, 12 and
the final window covers positions 12 to 15, i.e. 4 characters. -/
theorem chunk_text_16_5_1_counterexample :
    (chunk_text (List.replicate 16 'a') 5 1).map List.length ≠ [5, 5, 5, 1] := by
  decide

/-- C2 amended: for every text of exactly 16 characters, `chunk_text` with
`chunk_size = 5` and `overlap = 1` returns exactly four chunks with start
offsets `[0, 4, 8, 12]` and lengths `[5, 5, 5, 4]`. -/
theorem chunk_text_16_5_1 (text : List Char) (h : text.length = 16) :
    chunk_text text 5 1
      = [text.take 5, (text.drop 4).take 5, (text.drop 8).take 5, text.drop 12] ∧
    (chunk_text text 5 1).map List.length = [5, 5, 5, 4] := by
  obtain ⟨a0, text, rfl⟩ := List.exists_of_length_succ text (n := 15) (by omega)
  obtain ⟨a1, text, rfl⟩ := List.exists_of_length_succ text (n := 14)
    (by simp only [List.length_cons] at h; omega)
  obtain ⟨a2, text, rfl⟩ := List.exists_of_length_succ text (n := 13)
    (by simp only [List.length_cons] at h; omega)
  obtain ⟨a3, text, rfl⟩ := List.exists_of_length_succ text (n := 12)
    (by simp only [List.length_cons] at h; omega)
  obtain ⟨a4, text, rfl⟩ := List.exists_of_length_succ text (n := 11)
    (by simp only [List.length_cons] at h; omega)
  obtain ⟨a5, text, rfl⟩ := List.exists_of_length_succ text (n := 10)
    (by simp only [List.length_cons] at h; omega)
  obtain ⟨a6, text, rfl⟩ := List.exists_of_length_succ text (n := 9)
    (by simp only [List.length_cons] at h; omega)
  obtain ⟨a7, text, rfl⟩ := List.exists_of_length_succ text (n := 8)
    (by simp only [List.length_cons] at h; omega)
  obtain ⟨a8, text, rfl⟩ := List.exists_of_length_succ text (n := 7)
    (by simp only [List.length_cons] at h; omega)
  obtain ⟨a9, text, rfl⟩ := List.exists_of_length_succ text (n := 6)
    (by simp only [List.length_cons] at h; omega)
  obtain ⟨a10, text, rfl⟩ := List.exists_of_length_succ text (n := 5)
    (by simp only [List.length_cons] at h; omega)
  obtain ⟨a11, text, rfl⟩ := List.exists_of_length_succ text (n := 4)
    (by simp only [List.length_cons] at h; omega)
  obtain ⟨a12, text, rfl⟩ := List.exists_of_length_succ text (n := 3)
    (by simp only [List.length_cons] at h; omega)
  obtain ⟨a13, text, rfl⟩ := List.exists_of_length_succ text (n := 2)
    (by simp only [List.length_cons] at h; omega)
  obtain ⟨a14, text, rfl⟩ := List.exists_of_length_succ text (n := 1)
    (by simp only [List.length_cons] at h; omega)
  obtain ⟨a15, text, rfl⟩ := List.exists_of_length_succ text (n := 0)
    (by simp only [List.length_cons] at h; omega)
  obtain rfl : text = [] := List.length_eq_zero.mp
    (by simp only [List.length_cons] at h; omega)
  exact ⟨rfl, rfl⟩

/-- C2 amended witness: the amended statement instantiated at a concrete
16-character text. -/
theorem chunk_text_16_5_1_witness :
    (List.replicate 16 'a').length = 16 ∧
      (chunk_text (List.replicate 16 'a') 5 1).map List.length = [5, 5, 5, 4] :=
  ⟨by decide, (chunk_text_16_5_1 (List.replicate 16 'a') (by decide)).2⟩

/-- Python `str.isspace` characters (CPython `Py_UNICODE_ISSPACE`); these are
exactly the characters removed by `str.strip()` / `str.rstrip()` with no
argument. -/
def pyIsSpace (c : Char) : Bool :=
  (9 ≤ c.toNat && c.toNat ≤ 13) || (28 ≤ c.toNat && c.toNat ≤ 31) ||
  c.toNat == 32 || c.toNat == 133 || c.toNat == 160 || c.toNat == 0x1680 ||
  (0x2000 ≤ c.toNat && c.toNat ≤ 0x200A) || c.toNat == 0x2028 ||
  c.toNat == 0x2029 || c.toNat == 0x202F || c.toNat == 0x205F ||
  c.toNat == 0x3000

/-- A space or a tab: the character class `[ \t]` of `_WS_RE` in
`docx_reader.py` and `pdf_reader.py`. -/
def isSpaceTab (c : Char) : Bool := c == ' ' || c == '\t'

/-- State machine for `_WS_RE.sub(" ", line)`: replace every maximal run of
spaces/tabs by a single space.  `prevWS` records whether the previous
character belonged to such a run. -/
def collapseGo (prevWS : Bool) : List Char → List Char
  | [] => []
  | c :: cs =>
    if isSpaceTab c then
      if prevWS then collapseGo true cs else ' ' :: collapseGo true cs
    else c :: collapseGo false cs

/-- The whole `_WS_RE.sub(" ", line)` substitution from the readers. -/
def collapseWS (s : List Char) : List Char := collapseGo false s

/-- Python `str.strip(chars)` generalized over a character predicate: remove
matching characters from both ends. -/
def stripBy (p : Char → Bool) (s : List Char) : List Char :=
  ((s.dropWhile p).reverse.dropWhile p).reverse

/-- Python `line.strip()` (no argument). -/
def stripPy (s : List Char) : List Char := stripBy pyIsSpace s

/-- Python `s.strip(c)` for a single strip character, used for
`"...".strip("\n")`. -/
def stripChar (c : Char) (s : List Char) : List Char := stripBy (· == c) s

/-- Python `s.rstrip()` (no argument): remove trailing whitespace. -/
def rstripPy (s : List Char) : List Char := (s.reverse.dropWhile pyIsSpace).reverse

/-- Python `s.split("\n")`: split at every newline; always returns at least
one (possibly empty) field. -/
def splitLines : List Char → List (List Char)
  | [] => [[]]
  | c :: cs =>
    if c = '\n' then [] :: splitLines cs
    else
      match splitLines cs with
      | [] => [[c]]
      | l :: ls => (c :: l) :: ls

/-- Python `"\n".join(lines)`. -/
def joinNL : List (List Char) → List Char
  | [] => []
  | [l] => l
  | l :: ls => l ++ '\n' :: joinNL ls

/-- Python `s.replace("\r\n", "\n")`: scan left to right replacing
non-overlapping occurrences of the two-character pattern. -/
def replaceCRLF : List Char → List Char
  | [] => []
  | [c] => [c]
  | c :: c' :: cs =>
    if c = '\r' ∧ c' = '\n' then '\n' :: replaceCRLF cs
    else c :: replaceCRLF (c' :: cs)

/-- Python `s.replace("\r", "\n")`. -/
def replaceCR (s : List Char) : List Char :=
  s.map (fun c => if c = '\r' then '\n' else c)

/-- The per-line cleanup of `_clean_text`:
`_WS_RE.sub(" ", line).strip()`. -/
def cleanLine (l : List Char) : List Char := stripPy (collapseWS l)

/-- The function `_clean_text` from `docx_reader.py` and `pdf_reader.py` (the two copies
are character-for-character identical): normalize line terminators to `\n`,
collapse space/tab runs to one space and strip every line, then strip
leading and trailing newlines from the rejoined result. -/
def clean_text (s : List Char) : List Char :=
  stripChar '\n'
    (joinNL ((splitLines (replaceCR (replaceCRLF s))).map cleanLine))

example : clean_text "  a \t b\r\n\r\nc  ".data = "a b\n\nc".data := by decide

example : clean_text (clean_text "\n\n x\t\ty \r z\n".data)
    = clean_text "\n\n x\t\ty \r z\n".data := by decide

/-- The first character surviving `dropWhile p` does not satisfy `p`. -/
lemma dropWhile_head_not {α : Type} (p : α → Bool) :
    ∀ l : List α, ∀ c ∈ (l.dropWhile p).head?, p c = false := by
  intro l
  induction l with
  | nil => intro c hc; simp at hc
  | cons a t ih =>
    intro c hc
    by_cases hp : p a
    · rw [List.dropWhile_cons, if_pos hp] at hc
      exact ih c hc
    · rw [List.dropWhile_cons, if_neg hp] at hc
      simp at hc
      subst hc
      exact Bool.eq_false_iff.mpr hp

/-- Applying `dropWhile p` keeps a list whose first character does not satisfy `p`. -/
lemma dropWhile_eq_self_of_head {α : Type} (p : α → Bool) (l : List α)
    (h : ∀ c ∈ l.head?, p c = false) : l.dropWhile p = l := by
  cases l with
  | nil => rfl
  | cons a t => rw [List.dropWhile_cons, if_neg (by simp [h a (by simp)])]

/-- Applying `dropWhile` keeps the last element when its result is nonempty. -/
lemma getLast?_dropWhile_eq {α : Type} (p : α → Bool) :
    ∀ l : List α, l.dropWhile p ≠ [] → (l.dropWhile p).getLast? = l.getLast? := by
  intro l
  induction l with
  | nil => intro h; simp at h
  | cons a t ih =>
    intro h
    by_cases hp : p a
    · rw [List.dropWhile_cons, if_pos hp] at h ⊢
      rw [ih h]
      have ht : t ≠ [] := by
        intro he; rw [he] at h; simp at h
      rcases t with _ | ⟨b, bs⟩
      · exact absurd rfl ht
      · rw [List.getLast?_cons_cons]
    · rw [List.dropWhile_cons, if_neg hp]

/-- Membership survives `dropWhile` backwards. -/
lemma mem_of_mem_dropWhile {α : Type} (p : α → Bool) {c : α} {l : List α}
    (h : c ∈ l.dropWhile p) : c ∈ l :=
  (List.dropWhile_sublist p).mem h

/-- Membership survives `stripBy` backwards. -/
lemma mem_of_mem_stripBy (p : Char → Bool) {c : Char} {s : List Char}
    (h : c ∈ stripBy p s) : c ∈ s := by
  rw [stripBy, List.mem_reverse] at h
  have h1 := mem_of_mem_dropWhile p h
  rw [List.mem_reverse] at h1
  exact mem_of_mem_dropWhile p h1

/-- The first character of a stripped string does not satisfy `p`. -/
lemma stripBy_head_not (p : Char → Bool) (s : List Char) :
    ∀ c ∈ (stripBy p s).head?, p c = false := by
  intro c hc
  rw [stripBy, List.head?_reverse] at hc
  have hne : (s.dropWhile p).reverse.dropWhile p ≠ [] := by
    intro he; rw [he] at hc; simp at hc
  rw [getLast?_dropWhile_eq p _ hne, List.getLast?_reverse] at hc
  exact dropWhile_head_not p s c hc

/-- The last character of a stripped string does not satisfy `p`. -/
lemma stripBy_getLast_not (p : Char → Bool) (s : List Char) :
    ∀ c ∈ (stripBy p s).getLast?, p c = false := by
  intro c hc
  rw [stripBy, List.getLast?_reverse] at hc
  exact dropWhile_head_not p _ c hc

/-- Stripping does nothing when both ends already fail `p`. -/
lemma stripBy_eq_self (p : Char → Bool) (s : List Char)
    (h1 : ∀ c ∈ s.head?, p c = false) (h2 : ∀ c ∈ s.getLast?, p c = false) :
    stripBy p s = s := by
  rw [stripBy, dropWhile_eq_self_of_head p s h1,
    dropWhile_eq_self_of_head p s.reverse (by rw [List.head?_reverse]; exact h2),
    List.reverse_reverse]

/-- Stripping twice is the same as stripping once: `stripBy` is idempotent. -/
lemma stripBy_stripBy (p : Char → Bool) (s : List Char) :
    stripBy p (stripBy p s) = stripBy p s :=
  stripBy_eq_self p _ (stripBy_head_not p s) (stripBy_getLast_not p s)

/-- Characters of the collapsed string are spaces or input characters. -/
lemma mem_collapseGo {c : Char} :
    ∀ (s : List Char) (b : Bool), c ∈ collapseGo b s → c = ' ' ∨ c ∈ s := by
  intro s
  induction s with
  | nil => intro b h; simp [collapseGo] at h
  | cons a t ih =>
    intro b h
    rw [collapseGo] at h
    by_cases hsp : isSpaceTab a
    · rw [if_pos hsp] at h
      rcases hb : b with _ | _
      · rw [hb] at h
        simp only [Bool.false_eq_true, if_false] at h
        rcases List.mem_cons.mp h with h | h
        · exact Or.inl h
        · rcases ih true h with h | h
          · exact Or.inl h
          · exact Or.inr (List.mem_cons_of_mem a h)
      · rw [hb] at h
        simp only [if_true] at h
        rcases ih true h with h | h
        · exact Or.inl h
        · exact Or.inr (List.mem_cons_of_mem a h)
    · rw [if_neg hsp] at h
      rcases List.mem_cons.mp h with h | h
      · exact Or.inr (h ▸ List.mem_cons_self a t)
      · rcases ih false h with h | h
        · exact Or.inl h
        · exact Or.inr (List.mem_cons_of_mem a h)

/-- The collapsed string contains no tab. -/
lemma tab_not_mem_collapseGo : ∀ (s : List Char) (b : Bool), '\t' ∉ collapseGo b s := by
  intro s
  induction s with
  | nil => intro b h; simp [collapseGo] at h
  | cons a t ih =>
    intro b h
    rw [collapseGo] at h
    by_cases hsp : isSpaceTab a
    · rw [if_pos hsp] at h
      rcases b with _ | _
      · simp only [Bool.false_eq_true, if_false] at h
        rcases List.mem_cons.mp h with h | h
        · exact absurd h (by decide)
        · exact ih true h
      · simp only [if_true] at h
        exact ih true h
    · rw [if_neg hsp] at h
      rcases List.mem_cons.mp h with h | h
      · rw [isSpaceTab] at hsp
        simp at hsp
        exact hsp.2 h.symm
      · exact ih false h

/-- Collapsing is idempotent, jointly over both machine states. -/
lemma collapseGo_collapseGo :
    ∀ s : List Char,
      (∀ b, collapseGo false (collapseGo b s) = collapseGo b s) ∧
        collapseGo true (collapseGo true s) = collapseGo true s := by
  intro s
  induction s with
  | nil => exact ⟨fun _ => rfl, rfl⟩
  | cons a t ih =>
    by_cases hsp : isSpaceTab a
    · constructor
      · intro b
        rcases b with _ | _
        · rw [collapseGo, if_pos hsp]
          simp only [Bool.false_eq_true, if_false]
          rw [collapseGo, if_pos (by decide : isSpaceTab ' ' = true)]
          simp only [Bool.false_eq_true, if_false]
          rw [ih.2]
        · rw [collapseGo, if_pos hsp]
          simp only [if_true]
          exact ih.1 true
      · rw [collapseGo, if_pos hsp]
        simp only [if_true]
        exact ih.2
    · have step : ∀ b, collapseGo b (a :: t) = a :: collapseGo false t := by
        intro b; rw [collapseGo, if_neg hsp]
      constructor
      · intro b
        rw [step b, collapseGo, if_neg hsp, ih.1 false]
      · rw [step true, collapseGo, if_neg hsp, ih.1 false]

/-- Collapsing twice is the same as collapsing once: `collapseWS` is idempotent. -/
lemma collapseWS_collapseWS (s : List Char) : collapseWS (collapseWS s) = collapseWS s :=
  (collapseGo_collapseGo s).1 false

/-- Adjacent output characters of the collapser are never both spaces. -/
def NoTwoSpaces (a b : Char) : Prop := ¬(a = ' ' ∧ b = ' ')

/-- The head of the state-`true` collapser output is never a space or tab. -/
lemma collapseGo_true_head :
    ∀ s : List Char, ∀ c ∈ (collapseGo true s).head?, isSpaceTab c = false := by
  intro s
  induction s with
  | nil => intro c hc; simp [collapseGo] at hc
  | cons a t ih =>
    intro c hc
    by_cases hsp : isSpaceTab a
    · rw [collapseGo, if_pos hsp] at hc
      simp only [if_true] at hc
      exact ih c hc
    · rw [collapseGo, if_neg hsp] at hc
      simp at hc
      subst hc
      exact Bool.eq_false_iff.mpr hsp

/-- The collapser never emits two adjacent spaces. -/
lemma chain_collapseGo : ∀ (s : List Char) (b : Bool),
    List.Chain' NoTwoSpaces (collapseGo b s) := by
  intro s
  induction s with
  | nil => intro b; simp [collapseGo]
  | cons a t ih =>
    intro b
    by_cases hsp : isSpaceTab a
    · rcases b with _ | _
      · rw [collapseGo, if_pos hsp]
        simp only [Bool.false_eq_true, if_false]
        rw [List.chain'_cons']
        refine ⟨?_, ih true⟩
        intro y hy
        have := collapseGo_true_head t y hy
        rw [isSpaceTab] at this
        simp at this
        exact fun hcon => this.1 hcon.2
      · rw [collapseGo, if_pos hsp]
        simp only [if_true]
        exact ih true
    · rw [collapseGo, if_neg hsp]
      rw [List.chain'_cons']
      refine ⟨?_, ih false⟩
      intro y hy
      rw [isSpaceTab] at hsp
      simp at hsp
      exact fun hcon => hsp.1 hcon.1

/-- With `prevWS = true` the collapser agrees with `prevWS = false` whenever
the input does not begin with a space or tab. -/
lemma collapseGo_true_eq_false (s : List Char)
    (h : ∀ c ∈ s.head?, isSpaceTab c = false) :
    collapseGo true s = collapseGo false s := by
  cases s with
  | nil => rfl
  | cons a t =>
    have ha : isSpaceTab a = false := h a (by simp)
    rw [collapseGo, collapseGo, if_neg (by simp [ha]), if_neg (by simp [ha])]

/-- A tab-free string without adjacent spaces is a fixed point of the
collapser. -/
lemma collapseGo_false_fixed :
    ∀ s : List Char, '\t' ∉ s → List.Chain' NoTwoSpaces s →
      collapseGo false s = s := by
  intro s
  induction s with
  | nil => intro _ _; rfl
  | cons a t ih =>
    intro htab hch
    have htab' : '\t' ∉ t := fun h => htab (List.mem_cons_of_mem a h)
    have hat : a ≠ '\t' := fun h => htab (h ▸ List.mem_cons_self a t)
    by_cases ha : a = ' '
    · subst ha
      rw [collapseGo, if_pos (by decide)]
      simp only [Bool.false_eq_true, if_false]
      have hhead : ∀ c ∈ t.head?, isSpaceTab c = false := by
        intro c hc
        have h1 : NoTwoSpaces ' ' c := (List.chain'_cons'.mp hch).1 c hc
        rw [NoTwoSpaces] at h1
        have hcs : c ≠ ' ' := fun h => h1 ⟨rfl, h⟩
        have hct : c ≠ '\t' := fun h => htab' (h ▸ List.mem_of_mem_head? hc)
        rw [isSpaceTab]
        simp [hcs, hct]
      rw [collapseGo_true_eq_false t hhead, ih htab' hch.tail]
    · rw [collapseGo, if_neg (by rw [isSpaceTab]; simp [ha, hat]), ih htab' hch.tail]

/-- The relation `NoTwoSpaces` is symmetric. -/
lemma noTwoSpaces_symm {a b : Char} (h : NoTwoSpaces a b) : NoTwoSpaces b a := by
  rw [NoTwoSpaces] at h ⊢
  exact fun hc => h ⟨hc.2, hc.1⟩

/-- A `Chain'` survives `dropWhile`. -/
lemma chain_dropWhile (p : Char → Bool) :
    ∀ l : List Char, List.Chain' NoTwoSpaces l →
      List.Chain' NoTwoSpaces (l.dropWhile p) := by
  intro l
  induction l with
  | nil => intro h; exact h
  | cons a t ih =>
    intro h
    by_cases hp : p a
    · rw [List.dropWhile_cons, if_pos hp]
      exact ih h.tail
    · rw [List.dropWhile_cons, if_neg hp]
      exact h

/-- A `Chain'` survives `reverse`, since `NoTwoSpaces` is symmetric. -/
lemma chain_reverse {l : List Char} (h : List.Chain' NoTwoSpaces l) :
    List.Chain' NoTwoSpaces l.reverse :=
  List.chain'_reverse.mpr (h.imp (fun _ _ hab => noTwoSpaces_symm hab))

/-- A `Chain'` survives stripping. -/
lemma chain_stripBy (p : Char → Bool) {s : List Char}
    (h : List.Chain' NoTwoSpaces s) :
    List.Chain' NoTwoSpaces (stripBy p s) := by
  rw [stripBy]
  exact chain_reverse (chain_dropWhile p _ (chain_reverse (chain_dropWhile p _ h)))

/-- The per-line cleanup leaves an already clean line untouched at the
collapse stage: collapsing a stripped collapsed line changes nothing. -/
lemma collapseWS_cleanLine (l : List Char) :
    collapseWS (cleanLine l) = cleanLine l := by
  rw [cleanLine, stripPy, collapseWS]
  apply collapseGo_false_fixed
  · intro hmem
    exact tab_not_mem_collapseGo l false (mem_of_mem_stripBy pyIsSpace hmem)
  · exact chain_stripBy pyIsSpace (chain_collapseGo l false)

/-- The per-line cleanup of `_clean_text` is idempotent. -/
lemma cleanLine_cleanLine (l : List Char) : cleanLine (cleanLine l) = cleanLine l := by
  conv_lhs => rw [cleanLine, collapseWS_cleanLine]
  rw [cleanLine, stripPy, stripPy, collapseWS, stripBy_stripBy]

/-- Characters of a cleaned line are spaces or input characters. -/
lemma mem_cleanLine {c : Char} {l : List Char} (h : c ∈ cleanLine l) :
    c = ' ' ∨ c ∈ l := by
  rw [cleanLine, stripPy] at h
  exact mem_collapseGo l false (mem_of_mem_stripBy pyIsSpace h)

/-- Splitting always returns at least one field. -/
lemma splitLines_ne_nil : ∀ x : List Char, splitLines x ≠ [] := by
  intro x
  cases x with
  | nil => simp [splitLines]
  | cons c cs =>
    rw [splitLines]
    by_cases hc : c = '\n'
    · rw [if_pos hc]; simp
    · rw [if_neg hc]
      rcases splitLines cs with _ | ⟨l, ls⟩ <;> simp

/-- Unfolding of `joinNL` on a cons cell. -/
lemma joinNL_cons (l : List Char) (M : List (List Char)) :
    joinNL (l :: M) = l ++ (if M = [] then [] else '\n' :: joinNL M) := by
  cases M with
  | nil => simp [joinNL]
  | cons m ms => simp [joinNL]

/-- Joining the fields of a split recovers the string: `"\n".join` is a left
inverse of `split("\n")`. -/
lemma joinNL_splitLines : ∀ x : List Char, joinNL (splitLines x) = x := by
  intro x
  induction x with
  | nil => rfl
  | cons c cs ih =>
    rw [splitLines]
    by_cases hc : c = '\n'
    · rw [if_pos hc, joinNL_cons, if_neg (splitLines_ne_nil cs), ih, hc]
      rfl
    · rw [if_neg hc]
      rcases h' : splitLines cs with _ | ⟨l, ls⟩
      · exact absurd h' (splitLines_ne_nil cs)
      · rw [h'] at ih
        rcases ls with _ | ⟨l', ls'⟩
        · rw [joinNL] at ih ⊢
          rw [ih]
        · rw [joinNL_cons] at ih ⊢
          simp only [reduceCtorEq, if_false] at ih ⊢
          rw [List.cons_append, ih]

/-- Fields of a split contain no newline. -/
lemma no_newline_of_mem_splitLines : ∀ (x : List Char) (l : List Char),
    l ∈ splitLines x → '\n' ∉ l := by
  intro x
  induction x with
  | nil =>
    intro l hl
    simp [splitLines] at hl
    simp [hl]
  | cons c cs ih =>
    intro l hl
    rw [splitLines] at hl
    by_cases hc : c = '\n'
    · rw [if_pos hc] at hl
      rcases List.mem_cons.mp hl with h | h
      · simp [h]
      · exact ih l h
    · rw [if_neg hc] at hl
      rcases h' : splitLines cs with _ | ⟨l₀, ls⟩
      · exact absurd h' (splitLines_ne_nil cs)
      · rw [h'] at hl
        rcases List.mem_cons.mp hl with h | h
        · subst h
          intro hmem
          rcases List.mem_cons.mp hmem with h | h
          · exact hc h.symm
          · exact ih l₀ (h' ▸ List.mem_cons_self l₀ ls) h
        · exact ih l (h' ▸ List.mem_cons_of_mem l₀ h)

/-- Characters of split fields come from the split string. -/
lemma mem_of_mem_splitLines : ∀ (x : List Char) (l : List Char),
    l ∈ splitLines x → ∀ c ∈ l, c ∈ x := by
  intro x
  induction x with
  | nil =>
    intro l hl c hc
    simp [splitLines] at hl
    rw [hl] at hc
    simp at hc
  | cons a cs ih =>
    intro l hl c hc
    rw [splitLines] at hl
    by_cases ha : a = '\n'
    · rw [if_pos ha] at hl
      rcases List.mem_cons.mp hl with h | h
      · rw [h] at hc; simp at hc
      · exact List.mem_cons_of_mem a (ih l h c hc)
    · rw [if_neg ha] at hl
      rcases h' : splitLines cs with _ | ⟨l₀, ls⟩
      · exact absurd h' (splitLines_ne_nil cs)
      · rw [h'] at hl
        rcases List.mem_cons.mp hl with h | h
        · subst h
          rcases List.mem_cons.mp hc with h | h
          · exact h ▸ List.mem_cons_self a cs
          · exact List.mem_cons_of_mem a
              (ih l₀ (h' ▸ List.mem_cons_self l₀ ls) c h)
        · exact List.mem_cons_of_mem a
            (ih l (h' ▸ List.mem_cons_of_mem l₀ h) c hc)

/-- A newline-free string splits into a single field. -/
lemma splitLines_no_newline : ∀ l : List Char, '\n' ∉ l → splitLines l = [l] := by
  intro l
  induction l with
  | nil => intro _; rfl
  | cons c cs ih =>
    intro h
    have hc : c ≠ '\n' := fun he => h (he ▸ List.mem_cons_self c cs)
    rw [splitLines, if_neg hc, ih (fun hm => h (List.mem_cons_of_mem c hm))]

/-- Splitting after a newline-free chunk followed by an explicit newline. -/
lemma splitLines_append_newline : ∀ (l t : List Char), '\n' ∉ l →
    splitLines (l ++ '\n' :: t) = l :: splitLines t := by
  intro l
  induction l with
  | nil =>
    intro t _
    rw [List.nil_append, splitLines, if_pos rfl]
  | cons c cs ih =>
    intro t h
    have hc : c ≠ '\n' := fun he => h (he ▸ List.mem_cons_self c cs)
    rw [List.cons_append, splitLines, if_neg hc,
      ih t (fun hm => h (List.mem_cons_of_mem c hm))]

/-- Splitting on newlines is a left inverse of `"\n".join` on nonempty lists of
newline-free fields. -/
lemma splitLines_joinNL : ∀ L : List (List Char), L ≠ [] →
    (∀ l ∈ L, '\n' ∉ l) → splitLines (joinNL L) = L := by
  intro L
  induction L with
  | nil => intro h _; exact absurd rfl h
  | cons l M ih =>
    intro _ h
    rcases M with _ | ⟨m, ms⟩
    · rw [joinNL, splitLines_no_newline l (h l (List.mem_cons_self l []))]
    · rw [joinNL_cons, if_neg (by simp),
        splitLines_append_newline _ _ (h l (List.mem_cons_self l _)),
        ih (by simp) (fun a ha => h a (List.mem_cons_of_mem l ha))]

/-- Characters of a join are newlines or field characters. -/
lemma mem_joinNL {c : Char} : ∀ M : List (List Char),
    c ∈ joinNL M → c = '\n' ∨ ∃ m ∈ M, c ∈ m := by
  intro M
  induction M with
  | nil => intro h; simp [joinNL] at h
  | cons l M ih =>
    intro h
    rw [joinNL_cons] at h
    rcases List.mem_append.mp h with h | h
    · exact Or.inr ⟨l, List.mem_cons_self l M, h⟩
    · rcases M with _ | ⟨m, ms⟩
      · simp at h
      · simp only [reduceCtorEq, if_false] at h
        rcases List.mem_cons.mp h with h | h
        · exact Or.inl h
        · rcases ih h with h | ⟨m', hm', hc'⟩
          · exact Or.inl h
          · exact Or.inr ⟨m', List.mem_cons_of_mem l hm', hc'⟩

/-- Appending one more field to a nonempty join. -/
lemma joinNL_append_singleton : ∀ (A : List (List Char)) (x : List Char), A ≠ [] →
    joinNL (A ++ [x]) = joinNL A ++ '\n' :: x := by
  intro A
  induction A with
  | nil => intro x h; exact absurd rfl h
  | cons a A ih =>
    intro x _
    rcases A with _ | ⟨a', as⟩
    · rfl
    · have e1 : joinNL ((a :: a' :: as) ++ [x])
          = a ++ '\n' :: joinNL ((a' :: as) ++ [x]) := by
        rw [List.cons_append, joinNL_cons, if_neg (by simp)]
      have e2 : joinNL (a :: a' :: as) = a ++ '\n' :: joinNL (a' :: as) := by
        rw [joinNL_cons, if_neg (by simp)]
      rw [e1, ih x (by simp), e2]
      simp

/-- Reversal preserves emptiness. -/
lemma isEmpty_reverse (l : List Char) : l.reverse.isEmpty = l.isEmpty := by
  cases l with
  | nil => rfl
  | cons a t =>
    rw [List.reverse_cons]
    rcases h : t.reverse ++ [a] with _ | ⟨b, bs⟩
    · simp at h
    · rfl

/-- Dropping empty fields commutes with reversing every field. -/
lemma dropWhile_isEmpty_map_reverse :
    ∀ M : List (List Char),
      (M.map List.reverse).dropWhile (fun l => l.isEmpty)
        = (M.dropWhile (fun l => l.isEmpty)).map List.reverse := by
  intro M
  induction M with
  | nil => rfl
  | cons l M ih =>
    rw [List.map_cons, List.dropWhile_cons, List.dropWhile_cons, isEmpty_reverse]
    by_cases h : l.isEmpty
    · rw [if_pos h, if_pos h, ih]
    · rw [if_neg h, if_neg h, List.map_cons]

/-- Reversing every field twice is the identity. -/
lemma map_reverse_map_reverse (L : List (List Char)) :
    (L.map List.reverse).map List.reverse = L := by
  simp

/-- Reversing a join reverses the fields and their order. -/
lemma reverse_joinNL : ∀ M : List (List Char),
    (joinNL M).reverse = joinNL ((M.map List.reverse).reverse) := by
  intro M
  induction M with
  | nil => rfl
  | cons l M ih =>
    rcases M with _ | ⟨m, ms⟩
    · rfl
    · have e2 : joinNL (l :: m :: ms) = l ++ '\n' :: joinNL (m :: ms) := by
        rw [joinNL_cons, if_neg (by simp)]
      have e3 : (List.map List.reverse (l :: m :: ms)).reverse
          = (List.map List.reverse (m :: ms)).reverse ++ [l.reverse] := by
        rw [List.map_cons, List.reverse_cons]
      have hne : (List.map List.reverse (m :: ms)).reverse ≠ [] := by simp
      rw [e2, e3, joinNL_append_singleton _ _ hne, ← ih]
      simp

/-- Dropping leading newlines of a join drops exactly the leading empty
fields, provided no field contains a newline. -/
lemma dropWhile_nl_joinNL : ∀ M : List (List Char), (∀ l ∈ M, '\n' ∉ l) →
    (joinNL M).dropWhile (· == '\n') = joinNL (M.dropWhile (fun l => l.isEmpty)) := by
  intro M
  induction M with
  | nil => intro _; rfl
  | cons l M ih =>
    intro h
    rcases l with _ | ⟨c, cs⟩
    · rw [joinNL_cons, List.nil_append]
      have hR : (([] : List Char) :: M).dropWhile (fun l => l.isEmpty)
          = M.dropWhile (fun l => l.isEmpty) := by
        rw [List.dropWhile_cons, if_pos (by simp)]
      rw [hR]
      rcases M with _ | ⟨m, ms⟩
      · simp [joinNL]
      · rw [if_neg (by simp), List.dropWhile_cons, if_pos (by simp)]
        exact ih (fun a ha => h a (List.mem_cons_of_mem [] ha))
    · have hc : c ≠ '\n' :=
        fun he => h (c :: cs) (List.mem_cons_self _ _) (he ▸ List.mem_cons_self c cs)
      have hR : ((c :: cs) :: M).dropWhile (fun l => l.isEmpty) = (c :: cs) :: M := by
        rw [List.dropWhile_cons, if_neg (by simp)]
      have hL : joinNL ((c :: cs) :: M)
          = c :: (cs ++ (if M = [] then [] else '\n' :: joinNL M)) := by
        rw [joinNL_cons, List.cons_append]
      rw [hR, hL, List.dropWhile_cons, if_neg (by simp [hc])]

/-- Drop empty fields from both ends of a list of fields (the field-level
picture of `"...".strip("\n")` on the joined string). -/
def trimNil (M : List (List Char)) : List (List Char) :=
  ((M.dropWhile (fun l => l.isEmpty)).reverse.dropWhile (fun l => l.isEmpty)).reverse

/-- Fields of the trimmed list are fields of the original list. -/
lemma mem_of_mem_trimNil {l : List Char} {M : List (List Char)}
    (h : l ∈ trimNil M) : l ∈ M := by
  rw [trimNil, List.mem_reverse] at h
  have h1 := mem_of_mem_dropWhile _ h
  rw [List.mem_reverse] at h1
  exact mem_of_mem_dropWhile _ h1

/-- Stripping newlines from a join of newline-free fields trims the empty
fields at both ends. -/
lemma stripChar_nl_joinNL (M : List (List Char)) (h : ∀ l ∈ M, '\n' ∉ l) :
    stripChar '\n' (joinNL M) = joinNL (trimNil M) := by
  rw [stripChar, stripBy, dropWhile_nl_joinNL M h]
  set M₁ := M.dropWhile (fun l => l.isEmpty) with hM₁
  have hM₁mem : ∀ l ∈ M₁, '\n' ∉ l := fun l hl => h l (mem_of_mem_dropWhile _ hl)
  rw [reverse_joinNL M₁]
  have hrevmem : ∀ l ∈ (M₁.map List.reverse).reverse, '\n' ∉ l := by
    intro l hl
    rw [List.mem_reverse] at hl
    rcases List.mem_map.mp hl with ⟨m, hm, rfl⟩
    rw [List.mem_reverse]
    exact hM₁mem m hm
  rw [dropWhile_nl_joinNL _ hrevmem, reverse_joinNL]
  congr 1
  have e1 : (M₁.map List.reverse).reverse = M₁.reverse.map List.reverse := by
    rw [List.map_reverse]
  rw [e1, dropWhile_isEmpty_map_reverse M₁.reverse, map_reverse_map_reverse,
    trimNil, ← hM₁]

/-- The replacement `replaceCR` leaves no carriage return behind. -/
lemma replaceCR_no_CR (s : List Char) : '\r' ∉ replaceCR s := by
  rw [replaceCR]
  intro h
  rcases List.mem_map.mp h with ⟨a, _, ha⟩
  by_cases h' : a = '\r'
  · rw [if_pos h'] at ha
    exact absurd ha (by decide)
  · rw [if_neg h'] at ha
    exact h' ha

/-- Python `replace("\r\n", "\n")` does nothing on a string without `\r`. -/
lemma replaceCRLF_eq_self : ∀ s : List Char, '\r' ∉ s → replaceCRLF s = s
  | [], _ => rfl
  | [_], _ => rfl
  | c :: c' :: cs, h => by
    rw [replaceCRLF,
      if_neg (fun hc : c = '\r' ∧ c' = '\n' => h (hc.1 ▸ List.mem_cons_self c _)),
      replaceCRLF_eq_self (c' :: cs) (fun hm => h (List.mem_cons_of_mem c hm))]

/-- Python `replace("\r", "\n")` does nothing on a string without `\r`. -/
lemma replaceCR_eq_self (s : List Char) (h : '\r' ∉ s) : replaceCR s = s := by
  rw [replaceCR]
  have : ∀ a ∈ s, (if a = '\r' then '\n' else a) = id a := by
    intro a ha
    rw [if_neg (fun he : a = '\r' => h (he ▸ ha))]
    rfl
  rw [List.map_congr_left this, List.map_id]

/-- C3: the shared text normalizer `_clean_text` is idempotent:
normalizing an already-normalized string changes nothing. -/
theorem clean_text_idem (s : List Char) :
    clean_text (clean_text s) = clean_text s := by
  set M := (splitLines (replaceCR (replaceCRLF s))).map cleanLine with hM
  have hsM : clean_text s = stripChar '\n' (joinNL M) := rfl
  have hMnl : ∀ l ∈ M, '\n' ∉ l := by
    intro l hl hnl
    rcases List.mem_map.mp (hM ▸ hl) with ⟨l', hl', rfl⟩
    rcases mem_cleanLine hnl with h | h
    · exact absurd h (by decide)
    · exact no_newline_of_mem_splitLines _ l' hl' h
  have hMfix : ∀ m ∈ M, cleanLine m = m := by
    intro m hm
    rcases List.mem_map.mp (hM ▸ hm) with ⟨l', _, rfl⟩
    exact cleanLine_cleanLine l'
  have h1 : clean_text s = joinNL (trimNil M) := by
    rw [hsM, stripChar_nl_joinNL M hMnl]
  have hh : ∀ c ∈ (clean_text s).head?, (c == '\n') = false := by
    rw [hsM]; exact stripBy_head_not _ _
  have hl : ∀ c ∈ (clean_text s).getLast?, (c == '\n') = false := by
    rw [hsM]; exact stripBy_getLast_not _ _
  have hnor : '\r' ∉ clean_text s := by
    rw [hsM]
    intro hmem
    rcases mem_joinNL _ (mem_of_mem_stripBy _ hmem) with h | ⟨m, hmMem, hcm⟩
    · exact absurd h (by decide)
    · rcases List.mem_map.mp (hM ▸ hmMem) with ⟨l', hl', rfl⟩
      rcases mem_cleanLine hcm with h | h
      · exact absurd h (by decide)
      · exact replaceCR_no_CR _ (mem_of_mem_splitLines _ l' hl' '\r' h)
  show stripChar '\n'
      (joinNL ((splitLines (replaceCR (replaceCRLF (clean_text s)))).map cleanLine))
    = clean_text s
  rw [replaceCRLF_eq_self _ hnor, replaceCR_eq_self _ hnor]
  rcases htrim : trimNil M with _ | ⟨l0, ls⟩
  · have hts : clean_text s = [] := by rw [h1, htrim]; rfl
    rw [hts]
    rfl
  · have hsplit : splitLines (clean_text s) = l0 :: ls := by
      rw [h1, htrim]
      refine splitLines_joinNL _ (by simp) ?_
      intro l hlm
      exact hMnl l (mem_of_mem_trimNil (htrim ▸ hlm))
    have hfixed : (l0 :: ls).map cleanLine = l0 :: ls := by
      have : ∀ a ∈ l0 :: ls, cleanLine a = id a := by
        intro a ha
        rw [hMfix a (mem_of_mem_trimNil (htrim ▸ ha))]
        rfl
      rw [List.map_congr_left this, List.map_id]
    have hjoin : joinNL (l0 :: ls) = clean_text s := by rw [h1, htrim]
    rw [hsplit, hfixed, hjoin]
    exact stripBy_eq_self _ _ hh hl

/-- Escape literal newlines inside a table cell:
`c.replace("\n", "\\n")` in `TxtWriter._format_table`. -/
def escapeNL : List Char → List Char
  | [] => []
  | c :: cs => if c = '\n' then '\\' :: 'n' :: escapeNL cs else c :: escapeNL cs

/-- The `target_cols` computation of `TxtWriter._format_table`: the widest
row length when normalization is on, `0` otherwise. -/
def targetCols (rows : List (List (List Char))) (normalize : Bool) : Nat :=
  if normalize then rows.foldl (fun acc row => max acc row.length) 0 else 0

/-- The padding step of `TxtWriter._format_table`:
`if normalize and target_cols > 0 and len(cells) < target_cols:
cells += [""] * (target_cols - len(cells))`. -/
def padCells (row : List (List Char)) (normalize : Bool) (target : Nat) :
    List (List Char) :=
  if normalize ∧ 0 < target ∧ row.length < target then
    row ++ List.replicate (target - row.length) []
  else row

/-- Python `"\t".join(cells)`. -/
def joinTab : List (List Char) → List Char
  | [] => []
  | [c] => c
  | c :: cs => c ++ '\t' :: joinTab cs

/-- Python `" | ".join(cells)`. -/
def joinPipeSep : List (List Char) → List Char
  | [] => []
  | [c] => c
  | c :: cs => c ++ ' ' :: '|' :: ' ' :: joinPipeSep cs

/-- One line of `TxtWriter._format_table`: pad, escape newlines, then join
with tabs and `rstrip()` in `tsv` format, or render `| cell | cell |`
otherwise. -/
def formatRow (fmt : List Char) (normalize : Bool) (target : Nat)
    (row : List (List Char)) : List Char :=
  if fmt = "tsv".data then
    rstripPy (joinTab ((padCells row normalize target).map escapeNL))
  else
    '|' :: ' ' :: (joinPipeSep ((padCells row normalize target).map escapeNL)
      ++ [' ', '|'])

/-- The method `TxtWriter._format_table`: one output line per table row. -/
def format_table (rows : List (List (List Char))) (fmt : List Char)
    (normalize : Bool) : List (List Char) :=
  rows.map (formatRow fmt normalize (targetCols rows normalize))

/-- C4 counterexample: for the table `[["A1","B1"],["A2"]]` with
`normalize_tables = true` and `table_format = "tsv"`, the second rendered
line is `"A2"`, not `"A2\t"`: the padding adds an empty cell, but the
`rstrip()` of the `tsv` branch then removes the trailing tab. -/
theorem format_table_tsv_counterexample :
    format_table [["A1".data, "B1".data], ["A2".data]] "tsv".data true
      ≠ ["A1\tB1".data, "A2\t".data] := by decide

/-- C4 amended: the table `[["A1","B1"],["A2"]]` with
`normalize_tables = true` and `table_format = "tsv"` renders as exactly the
two lines `"A1\tB1"` and `"A2"`; the second row is padded with one empty
cell whose trailing tab is then trimmed by the `tsv` rstrip rule. -/
theorem format_table_tsv_example :
    format_table [["A1".data, "B1".data], ["A2".data]] "tsv".data true
      = ["A1\tB1".data, "A2".data] := by decide

/-- The initial accumulator never exceeds the fold of row-length maxima. -/
lemma foldl_max_init_le :
    ∀ (rows : List (List (List Char))) (init : Nat),
      init ≤ rows.foldl (fun acc row => max acc row.length) init := by
  intro rows
  induction rows with
  | nil => intro init; exact le_refl _
  | cons r rs ih =>
    intro init
    exact le_trans (le_max_left init r.length) (ih _)

/-- Every row length is bounded by the fold of row-length maxima. -/
lemma length_le_foldl_max :
    ∀ (rows : List (List (List Char))) (init : Nat) (r : List (List Char)),
      r ∈ rows → r.length ≤ rows.foldl (fun acc row => max acc row.length) init := by
  intro rows
  induction rows with
  | nil => intro init r hr; simp at hr
  | cons row rs ih =>
    intro init r hr
    rcases List.mem_cons.mp hr with rfl | h
    · exact le_trans (le_max_right init r.length) (foldl_max_init_le rs _)
    · exact ih _ r h

/-- C5: with `normalize_tables` enabled, the writer's table formatting pads
every row of a table to the widest row's length by appending empty-string
cells after the row's existing cells: the original cells are kept verbatim
as a prefix (none modified, reordered or removed), the padded row has
exactly the target length, and a row already at that length is unchanged. -/
theorem format_table_pad_spec (rows : List (List (List Char)))
    (row : List (List Char)) (hrow : row ∈ rows) :
    padCells row true (targetCols rows true)
        = row ++ List.replicate (targetCols rows true - row.length) [] ∧
      (padCells row true (targetCols rows true)).length = targetCols rows true ∧
      (row.length = targetCols rows true →
        padCells row true (targetCols rows true) = row) := by
  have hle : row.length ≤ targetCols rows true := by
    rw [targetCols, if_pos rfl]
    exact length_le_foldl_max rows 0 row hrow
  by_cases hlt : row.length < targetCols rows true
  · have hpos : 0 < targetCols rows true := Nat.lt_of_le_of_lt (Nat.zero_le _) hlt
    have hpad : padCells row true (targetCols rows true)
        = row ++ List.replicate (targetCols rows true - row.length) [] := by
      rw [padCells, if_pos ⟨rfl, hpos, hlt⟩]
    refine ⟨hpad, ?_, ?_⟩
    · rw [hpad, List.length_append, List.length_replicate]
      omega
    · intro he
      omega
  · have heq : row.length = targetCols rows true := le_antisymm hle (not_lt.mp hlt)
    have hpad : padCells row true (targetCols rows true) = row := by
      rw [padCells, if_neg (fun hc => hlt hc.2.2)]
    refine ⟨?_, ?_, fun _ => hpad⟩
    · rw [hpad, heq, Nat.sub_self, List.replicate_zero, List.append_nil]
    · rw [hpad, heq]

/-- Blocks of the intermediate document model (`core/models.py`):
`ParagraphBlock` and `TableBlock`, each carrying header/footer provenance. -/
inductive Block where
  | paragraph (text : List Char) (is_header : Bool) (is_footer : Bool)
  | table (rows : List (List (List Char))) (is_header : Bool) (is_footer : Bool)
deriving DecidableEq

/-- The aggregate `DocumentModel` (`core/models.py`): ordered blocks plus metadata. -/
structure DocumentModel where
  blocks : List Block
  metadata : List (List Char × List Char)

/-- Whether a block is a `TableBlock`. -/
def Block.isTable : Block → Bool
  | .table _ _ _ => true
  | .paragraph _ _ _ => false

/-- Read options recognized by the readers, with their documented defaults
(`options.get(key, default)` in the Python readers). -/
structure ReadOptions where
  include_headers : Bool := false
  include_footers : Bool := false
  include_tables : Bool := true
  keep_empty_paragraphs : Bool := false

/-- Write options recognized by `TxtWriter.write`, with their defaults. -/
structure WriteOptions where
  include_tables : Bool := true
  table_format : List Char := "tsv".data
  normalize_tables : Bool := true
  utf8_bom : Bool := false
  enable_chunk : Bool := false
  chunk_size : Int := 12000
  overlap : Int := 300

/-- The final path component (`pathlib.PurePath.name` for a POSIX-style
path): everything after the last `/`. -/
def pathName (p : List Char) : List Char :=
  (p.reverse.takeWhile (fun c => c ≠ '/')).reverse

/-- Python `pathlib.PurePath.suffix`: with `i = name.rfind('.')`, the slice
`name[i:]` when `0 < i < len(name) - 1`, else empty. -/
def pathSuffix (p : List Char) : List Char :=
  match (pathName p).reverse.findIdx? (fun c => c == '.') with
  | none => []
  | some j =>
    if 0 < (pathName p).length - 1 - j ∧
        (pathName p).length - 1 - j < (pathName p).length - 1 then
      (pathName p).drop ((pathName p).length - 1 - j)
    else []

/-- Python `pathlib.PurePath.stem`: the final component without its suffix. -/
def pathStem (p : List Char) : List Char :=
  (pathName p).take ((pathName p).length - (pathSuffix p).length)

/-- Python `pathlib.PurePath.parent` of a POSIX-style path: the directory part
before the last `/`, `"."` when there is none, `"/"` at the root. -/
def pathParent (p : List Char) : List Char :=
  if (p.reverse.dropWhile (fun c => c ≠ '/')).isEmpty then ['.']
  else if ((p.reverse.dropWhile (fun c => c ≠ '/')).drop 1).isEmpty then ['/']
  else ((p.reverse.dropWhile (fun c => c ≠ '/')).drop 1).reverse

/-- Python `pathlib` path join `folder / name` rendered as a string, for the
folders produced by `pathParent`. -/
def pathJoin (dir name : List Char) : List Char :=
  if dir = ['.'] then name
  else if dir = ['/'] then '/' :: name
  else dir ++ '/' :: name

/-- Python `str.lower()`, character by character. -/
def toLowerStr (p : List Char) : List Char := p.map Char.toLower

example : pathSuffix "dir/Report.TXT".data = ".TXT".data := by decide

example : pathStem "dir/report.txt".data = "report".data := by decide

example : pathParent "dir/report.txt".data = "dir".data := by decide

example : pathParent "report.txt".data = ".".data := by decide

example : pathSuffix "archive.tar.gz".data = ".gz".data := by decide

example : pathSuffix ".bashrc".data = [] := by decide

/-- One file write performed by a writer: target path and content. -/
structure FileWrite where
  path : List Char
  content : List Char

/-- A reader plugin's `read`: fail with an error message or return a model. -/
def ReaderFn : Type :=
  List Char → ReadOptions → Except (List Char) DocumentModel

/-- A writer plugin's `write`: the outcome together with the file writes it
performed (a failing write may leave earlier writes behind). -/
def WriterFn : Type :=
  DocumentModel → List Char → WriteOptions →
    Except (List Char) Unit × List FileWrite

/-- The plugin registry (`plugins/registry.py`): two extension-keyed maps;
lookup lowercases the extension and returns "not found" as `none`. -/
structure Registry where
  readers : List (List Char × ReaderFn)
  writers : List (List Char × WriterFn)

/-- The lookup `PluginRegistry.get_reader`. -/
def getReader (reg : Registry) (ext : List Char) : Option ReaderFn :=
  reg.readers.lookup (toLowerStr ext)

/-- The lookup `PluginRegistry.get_writer`. -/
def getWriter (reg : Registry) (ext : List Char) : Option WriterFn :=
  reg.writers.lookup (toLowerStr ext)

/-- The error taxonomy of `core/errors.py`: `UnsupportedExtensionError` and
`ConversionFailedError` are distinct kinds. -/
inductive ConvError where
  | unsupportedExtension (msg : List Char)
  | conversionFailed (msg : List Char)
deriving DecidableEq

/-- The I/O a conversion performs: reading the input, writing output files. -/
inductive IOEvent where
  | readFile (path : List Char)
  | writeFile (w : FileWrite)

/-- The method `CoreEngine.convert` (`core/engine.py`): resolve reader and writer by
lowercased path suffix; fail with `UnsupportedExtension` when either is
missing — before any I/O, so with an empty event trace; otherwise run read
then write, wrapping any plugin error in `ConversionFailed` with the
original message preserved.  Returns the outcome and the I/O trace. -/
def convert (reg : Registry) (input_path output_path : List Char)
    (read_options : ReadOptions) (write_options : WriteOptions) :
    Except ConvError Unit × List IOEvent :=
  match getReader reg (toLowerStr (pathSuffix input_path)) with
  | none =>
    (.error (.unsupportedExtension ("No reader found for extension '".data
      ++ toLowerStr (pathSuffix input_path) ++ "'".data)), [])
  | some reader =>
    match getWriter reg (toLowerStr (pathSuffix output_path)) with
    | none =>
      (.error (.unsupportedExtension ("No writer found for extension '".data
        ++ toLowerStr (pathSuffix output_path) ++ "'".data)), [])
    | some writer =>
      match reader input_path read_options with
      | .error e =>
        (.error (.conversionFailed ("Conversion failed: ".data ++ e)),
          [.readFile input_path])
      | .ok model =>
        match writer model output_path write_options with
        | (.error e, ws) =>
          (.error (.conversionFailed ("Conversion failed: ".data ++ e)),
            .readFile input_path :: ws.map .writeFile)
        | (.ok _, ws) =>
          (.ok (), .readFile input_path :: ws.map .writeFile)

/-- C5 witness: the padding specification instantiated at a concrete table
with a short row. -/
theorem format_table_pad_spec_witness :
    ("A2".data :: []) ∈ [["A1".data, "B1".data], ["A2".data]] ∧
      padCells ["A2".data] true
          (targetCols [["A1".data, "B1".data], ["A2".data]] true)
        = ["A2".data] ++ List.replicate
            (targetCols [["A1".data, "B1".data], ["A2".data]] true - 1) [] :=
  ⟨by decide,
    (format_table_pad_spec [["A1".data, "B1".data], ["A2".data]] ["A2".data]
      (by decide)).1⟩

/-- C6: when the lowercased input suffix has no registered reader, or the
input side resolves but the lowercased output suffix has no registered
writer, `convert` fails with an `UnsupportedExtension` error naming the
missing side and the extension, with an empty I/O trace: the failure
happens before any read or write, so no output file is created. -/
theorem convert_unsupported_extension (reg : Registry)
    (input_path output_path : List Char) (ro : ReadOptions) (wo : WriteOptions) :
    (getReader reg (toLowerStr (pathSuffix input_path)) = none →
      convert reg input_path output_path ro wo
        = (.error (.unsupportedExtension ("No reader found for extension '".data
            ++ toLowerStr (pathSuffix input_path) ++ "'".data)), [])) ∧
    (∀ r, getReader reg (toLowerStr (pathSuffix input_path)) = some r →
      getWriter reg (toLowerStr (pathSuffix output_path)) = none →
      convert reg input_path output_path ro wo
        = (.error (.unsupportedExtension ("No writer found for extension '".data
            ++ toLowerStr (pathSuffix output_path) ++ "'".data)), [])) := by
  constructor
  · intro h
    rw [convert, h]
  · intro r h1 h2
    rw [convert, h1, h2]

/-- C6 witness: with an empty registry, converting `in.docx` to `out.txt`
fails with the reader-side `UnsupportedExtension` error and an empty trace. -/
theorem convert_unsupported_extension_witness :
    convert ⟨[], []⟩ "in.docx".data "out.txt".data {} {}
      = (.error (.unsupportedExtension ("No reader found for extension '".data
          ++ toLowerStr (pathSuffix "in.docx".data) ++ "'".data)), []) :=
  (convert_unsupported_extension ⟨[], []⟩ "in.docx".data "out.txt".data {} {}).1 rfl

/-- C7: once reader and writer resolve, any error from the reader's read or
the writer's write is re-raised as `ConversionFailed` — a kind distinct from
`UnsupportedExtension` — whose message is the original failure's message
prefixed by `"Conversion failed: "`, so the original text stays visible. -/
theorem convert_wraps_plugin_errors (reg : Registry)
    (input_path output_path : List Char) (ro : ReadOptions) (wo : WriteOptions)
    (r : ReaderFn) (w : WriterFn)
    (hr : getReader reg (toLowerStr (pathSuffix input_path)) = some r)
    (hw : getWriter reg (toLowerStr (pathSuffix output_path)) = some w) :
    (∀ e, r input_path ro = .error e →
      (convert reg input_path output_path ro wo).1
        = .error (.conversionFailed ("Conversion failed: ".data ++ e))) ∧
    (∀ m e ws, r input_path ro = .ok m → w m output_path wo = (.error e, ws) →
      (convert reg input_path output_path ro wo).1
        = .error (.conversionFailed ("Conversion failed: ".data ++ e))) ∧
    (∀ m1 m2, ConvError.conversionFailed m1 ≠ ConvError.unsupportedExtension m2) := by
  refine ⟨?_, ?_, ?_⟩
  · intro e he
    simp only [convert, hr, hw, he]
  · intro m e ws hm hwires
    simp only [convert, hr, hw, hm, hwires]
  · intro m1 m2 h
    exact ConvError.noConfusion h

/-- C7 witness: a registry whose reader fails with message `boom` makes
`convert` fail with `ConversionFailed` carrying that message. -/
theorem convert_wraps_plugin_errors_witness :
    (convert
        ⟨[(".docx".data, fun _ _ => .error "boom".data)],
         [(".txt".data, fun _ _ _ => (.ok (), []))]⟩
        "in.docx".data "out.txt".data {} {}).1
      = .error (.conversionFailed ("Conversion failed: ".data ++ "boom".data)) :=
  (convert_wraps_plugin_errors
      ⟨[(".docx".data, fun _ _ => .error "boom".data)],
       [(".txt".data, fun _ _ _ => (.ok (), []))]⟩
      "in.docx".data "out.txt".data {} {} _ _ rfl rfl).1 "boom".data rfl

/-- Modelled from the spec: the `"[HEADER]"` marker token returned by
`i18n.t("header_marker")`; the locale JSON files holding these strings are
not among the sources, and the spec fixes the language-neutral tokens. -/
def header_marker : List Char := "[HEADER]".data

/-- Modelled from the spec: the `"[FOOTER]"` marker token returned by
`i18n.t("footer_marker")`. -/
def footer_marker : List Char := "[FOOTER]".data

/-- Modelled from the spec: the `"[TABLE]"` marker token returned by
`i18n.t("table_marker")`. -/
def table_marker : List Char := "[TABLE]".data

/-- The `out_lines` contribution of one block in `TxtWriter.write`:
a paragraph renders as its text, marker-prefixed for header/footer
provenance; a table (when tables are included) renders as the table marker,
the formatted rows, and a blank separator line. -/
def blockLines (include_tables : Bool) (table_format : List Char)
    (normalize_tables : Bool) : Block → List (List Char)
  | .paragraph text h f =>
    if h then [header_marker ++ ' ' :: text]
    else if f then [footer_marker ++ ' ' :: text]
    else [text]
  | .table rows _ _ =>
    if include_tables then
      table_marker :: (format_table rows table_format normalize_tables ++ [[]])
    else []

/-- The assembled output text of `TxtWriter.write`:
`"\n".join(out_lines).rstrip() + "\n"`. -/
def assembleText (model : DocumentModel) (wo : WriteOptions) : List Char :=
  rstripPy (joinNL ((model.blocks.map
    (blockLines wo.include_tables wo.table_format wo.normalize_tables)).flatten))
    ++ ['\n']

/-- Python `f"{idx:03d}"`: decimal digits, zero-padded to width three. -/
def pad3 (n : Nat) : List Char :=
  if (Nat.toDigits 10 n).length < 3 then
    List.replicate (3 - (Nat.toDigits 10 n).length) '0' ++ Nat.toDigits 10 n
  else Nat.toDigits 10 n

/-- The files written by `TxtWriter.write`: with chunking enabled, one
sibling file per chunk named `{stem}_part{idx:03d}.txt` (1-based) in
`output_path`'s parent directory; otherwise the whole text goes to
`output_path`. -/
def txtWriterWrites (model : DocumentModel) (output_path : List Char)
    (wo : WriteOptions) : List FileWrite :=
  if wo.enable_chunk then
    (chunk_text (assembleText model wo) wo.chunk_size wo.overlap).enum.map
      (fun ic => ⟨pathJoin (pathParent output_path)
          (pathStem output_path ++ "_part".data ++ pad3 (ic.1 + 1)
            ++ ".txt".data),
        ic.2⟩)
  else [⟨output_path, assembleText model wo⟩]

/-- C8 counterexample: chunking with `output_path = "dir/report.md"` writes
the chunk to `dir/report_part001.txt` — the writer hardcodes the `.txt`
extension for chunk files — not to `dir/report_part001.md`, which the
claim's `{ext}` (the output path's own extension) would require. -/
theorem txt_writer_chunk_ext_counterexample :
    (txtWriterWrites ⟨[Block.paragraph "abc".data false false], []⟩
        "dir/report.md".data
        ⟨true, "tsv".data, true, false, true, 12000, 300⟩).map FileWrite.path
      = ["dir/report_part001.txt".data] ∧
    (txtWriterWrites ⟨[Block.paragraph "abc".data false false], []⟩
        "dir/report.md".data
        ⟨true, "tsv".data, true, false, true, 12000, 300⟩).map FileWrite.path
      ≠ ["dir/report_part001.md".data] := by
  constructor
  · decide
  · decide

/-- C8 amended: with chunking enabled the writer writes chunk `i` (1-based
index `i + 1`) to the sibling file
`{stem}_part{NNN}.txt` — zero-padded 3-digit index, fixed `.txt` extension,
which coincides with `output_path`'s extension exactly when that extension
is `.txt`, the only extension this writer registers — in `output_path`'s
parent directory; with chunking disabled the whole assembled text goes to
`output_path` itself. -/
theorem txt_writer_write_files (model : DocumentModel) (output_path : List Char)
    (wo : WriteOptions) :
    (wo.enable_chunk = true → ∀ i : Nat,
      (txtWriterWrites model output_path wo)[i]?
        = ((chunk_text (assembleText model wo) wo.chunk_size wo.overlap)[i]?).map
            (fun c => ⟨pathJoin (pathParent output_path)
                (pathStem output_path ++ "_part".data ++ pad3 (i + 1)
                  ++ ".txt".data), c⟩)) ∧
    (wo.enable_chunk = false →
      txtWriterWrites model output_path wo
        = [⟨output_path, assembleText model wo⟩]) := by
  constructor
  · intro h i
    rw [txtWriterWrites, if_pos h, List.getElem?_map, List.getElem?_enum]
    cases (chunk_text (assembleText model wo) wo.chunk_size wo.overlap)[i]? with
    | none => rfl
    | some c => rfl
  · intro h
    rw [txtWriterWrites, if_neg (by simp [h])]

/-- C8 amended witness: the naming scheme evaluated on a concrete chunked
write: four chunks of `"Hello World 123\n"` with window 5 and overlap 1 go
to `out_part001.txt` … `out_part004.txt`. -/
theorem txt_writer_write_files_witness :
    (txtWriterWrites ⟨[Block.paragraph "Hello World 123".data false false], []⟩
        "out.txt".data ⟨true, "tsv".data, true, false, true, 5, 1⟩)[0]?
      = ((chunk_text
            (assembleText ⟨[Block.paragraph "Hello World 123".data false false], []⟩
              ⟨true, "tsv".data, true, false, true, 5, 1⟩) 5 1)[0]?).map
          (fun c => ⟨pathJoin (pathParent "out.txt".data)
              (pathStem "out.txt".data ++ "_part".data ++ pad3 1
                ++ ".txt".data), c⟩) :=
  (txt_writer_write_files ⟨[Block.paragraph "Hello World 123".data false false], []⟩
    "out.txt".data ⟨true, "tsv".data, true, false, true, 5, 1⟩).1 rfl 0

/-- C9: the text assembled by `TxtWriter.write` always ends in exactly one
`"\n"` with no trailing whitespace before it: everything before the final
newline ends (when nonempty) in a character that is not Python whitespace,
hence in particular not another newline.  A model with no blocks — and more
generally one whose rendered lines are all whitespace — assembles to exactly
the single character `"\n"`, never to empty output. -/
theorem assembleText_trailing_newline (model : DocumentModel) (wo : WriteOptions) :
    (∃ r, assembleText model wo = r ++ ['\n'] ∧
      ∀ c ∈ r.getLast?, pyIsSpace c = false) ∧
    (model.blocks = [] → assembleText model wo = ['\n']) ∧
    ((∀ c ∈ joinNL ((model.blocks.map
          (blockLines wo.include_tables wo.table_format
            wo.normalize_tables)).flatten), pyIsSpace c = true) →
      assembleText model wo = ['\n']) := by
  refine ⟨?_, ?_, ?_⟩
  · refine ⟨rstripPy (joinNL ((model.blocks.map
      (blockLines wo.include_tables wo.table_format
        wo.normalize_tables)).flatten)), rfl, ?_⟩
    intro c hc
    rw [rstripPy, List.getLast?_reverse] at hc
    exact dropWhile_head_not pyIsSpace _ c hc
  · intro h
    rw [assembleText, h]
    rfl
  · intro h
    have hdw : (joinNL ((model.blocks.map
        (blockLines wo.include_tables wo.table_format
          wo.normalize_tables)).flatten)).reverse.dropWhile pyIsSpace = [] := by
      rw [List.dropWhile_eq_nil_iff]
      intro x hx
      exact h x (List.mem_reverse.mp hx)
    rw [assembleText, rstripPy, hdw]
    rfl

/-- C9 witness: an empty model assembles to exactly `"\n"`. -/
theorem assembleText_trailing_newline_witness :
    assembleText ⟨[], []⟩ ⟨true, "tsv".data, true, false, false, 12000, 300⟩
      = ['\n'] :=
  (assembleText_trailing_newline ⟨[], []⟩
    ⟨true, "tsv".data, true, false, false, 12000, 300⟩).2.1 rfl

/-- One page of an opened PDF as seen through `pdfplumber` in
`PdfReader.read`: the result of `page.extract_text()` (`None` or a string)
and of `page.extract_tables()`, which may raise (`Except.error`) or return
tables whose cells are `None` or strings. -/
structure PdfPage where
  extract_text : Option (List Char)
  extract_tables :
    Except (List Char) (List (List (List (Option (List Char)))))

/-- The table blocks one page contributes in `PdfReader.read`: an exception
from the detector is swallowed (`except Exception: tables = []`); otherwise
one `TableBlock` per table, each cell cleaned, with `None`/empty cells
becoming empty strings. -/
def pageTables (page : PdfPage) : List Block :=
  match page.extract_tables with
  | .error _ => []
  | .ok tables =>
    tables.map (fun table =>
      Block.table
        (table.map (fun row =>
          row.map (fun cell =>
            match cell with
            | some c => if c.isEmpty then [] else clean_text c
            | none => [])))
        false false)

/-- The text blocks one page contributes: truthy extracted text is cleaned
and split into lines, keeping empty lines only under
`keep_empty_paragraphs`; falsy text (`None` or empty) yields one empty
paragraph only under `keep_empty_paragraphs`. -/
def pageTextBlocks (keep_empty : Bool) (page : PdfPage) : List Block :=
  match page.extract_text with
  | some t =>
    if ¬t.isEmpty then
      ((splitLines (clean_text t)).filter
        (fun line => ¬line.isEmpty || keep_empty)).map
        (fun line => Block.paragraph line false false)
    else if keep_empty then [Block.paragraph [] false false] else []
  | none => if keep_empty then [Block.paragraph [] false false] else []

/-- Everything one page contributes to the model, in source order: the
optional `Page N` header marker, the text paragraphs, then the tables when
requested. -/
def pageBlocks (include_headers include_tables keep_empty : Bool)
    (page_num : Nat) (page : PdfPage) : List Block :=
  (if include_headers then
    [Block.paragraph ("Page ".data ++ Nat.toDigits 10 page_num) true false]
  else [])
    ++ pageTextBlocks keep_empty page
    ++ (if include_tables then pageTables page else [])

/-- The page loop of `PdfReader.read`:
`for page_num, page in enumerate(pdf.pages, start=1)`. -/
def pdfPagesLoop (ro : ReadOptions) : Nat → List PdfPage → List Block
  | _, [] => []
  | num, page :: rest =>
    pageBlocks ro.include_headers ro.include_tables ro.keep_empty_paragraphs
        num page
      ++ pdfPagesLoop ro (num + 1) rest

/-- The method `PdfReader.read` on an already opened PDF: an empty page collection
yields the empty model, otherwise the concatenation of all page
contributions, with the reader's metadata. -/
def pdfRead (ro : ReadOptions) (file_path : List Char)
    (pages : List PdfPage) : DocumentModel :=
  ⟨if pages.isEmpty then [] else pdfPagesLoop ro 1 pages,
   [("source".data, file_path), ("type".data, "pdf".data)]⟩

/-- Replacing one page by the same page with a table-detector result of
`.ok []` changes nothing in the loop when the original detector raised. -/
lemma pdfPagesLoop_set (ro : ReadOptions) :
    ∀ (pages : List PdfPage) (num i : Nat) (page : PdfPage) (e : List Char),
      pages[i]? = some page → page.extract_tables = .error e →
      pdfPagesLoop ro num (pages.set i ⟨page.extract_text, .ok []⟩)
        = pdfPagesLoop ro num pages := by
  intro pages
  induction pages with
  | nil => intro num i page e hp _; simp at hp
  | cons q qs ih =>
    intro num i page e hp he
    cases i with
    | zero =>
      obtain rfl : q = page := by simpa using hp
      rw [List.set_cons_zero, pdfPagesLoop, pdfPagesLoop]
      congr 1
      have htext : pageTextBlocks ro.keep_empty_paragraphs
          ⟨q.extract_text, .ok []⟩
          = pageTextBlocks ro.keep_empty_paragraphs q := rfl
      have htab : (pageTables ⟨q.extract_text, .ok []⟩ : List Block)
          = pageTables q := by
        simp only [pageTables, he, List.map_nil]
      rw [pageBlocks, pageBlocks, htext, htab]
    | succ j =>
      simp only [List.getElem?_cons_succ] at hp
      rw [List.set_cons_succ, pdfPagesLoop, pdfPagesLoop, ih (num + 1) j page e hp he]

/-- C10: if the per-page table detector raises while `include_tables` is on,
`PdfReader.read` emits zero `TableBlock`s for that page, keeps processing
all other pages, and returns a model normally: the result is exactly the
model obtained as if that page's detector had returned no tables. -/
theorem pdf_read_table_error (ro : ReadOptions) (fp : List Char)
    (pages : List PdfPage) (i : Nat) (page : PdfPage) (e : List Char)
    (hp : pages[i]? = some page) (he : page.extract_tables = .error e) :
    (∀ b ∈ pageBlocks ro.include_headers ro.include_tables
        ro.keep_empty_paragraphs (i + 1) page, b.isTable = false) ∧
    pdfRead ro fp pages
      = pdfRead ro fp (pages.set i ⟨page.extract_text, .ok []⟩) := by
  constructor
  · intro b hb
    rw [pageBlocks] at hb
    rcases List.mem_append.mp hb with hb | hb
    · rcases List.mem_append.mp hb with hb | hb
      · split at hb
        · rcases List.mem_singleton.mp hb with rfl
          rfl
        · simp at hb
      · rcases hx : page.extract_text with _ | t
        · simp only [pageTextBlocks, hx] at hb
          split at hb
          · rcases List.mem_singleton.mp hb with rfl
            rfl
          · simp at hb
        · simp only [pageTextBlocks, hx] at hb
          split at hb
          · rcases List.mem_map.mp hb with ⟨line, _, rfl⟩
            rfl
          · split at hb
            · rcases List.mem_singleton.mp hb with rfl
              rfl
            · simp at hb
    · split at hb
      · simp only [pageTables, he] at hb
        simp at hb
      · simp at hb
  · rw [pdfRead, pdfRead]
    have hlen : (pages.set i ⟨page.extract_text, .ok []⟩).isEmpty = pages.isEmpty := by
      rcases pages with _ | ⟨q, qs⟩
      · rfl
      · cases i <;> rfl
    rw [hlen, pdfPagesLoop_set ro pages 1 i page e hp he]

/-- C10 witness: a single-page PDF whose table detector raises still reads
into a model, with no table block from that page. -/
theorem pdf_read_table_error_witness :
    ([⟨some "hi".data, Except.error "boom".data⟩] :
        List PdfPage)[0]? = some ⟨some "hi".data, Except.error "boom".data⟩ ∧
      pdfRead {} "doc.pdf".data [⟨some "hi".data, Except.error "boom".data⟩]
        = pdfRead {} "doc.pdf".data
            ([⟨some "hi".data, Except.error "boom".data⟩].set 0
              ⟨some "hi".data, Except.ok []⟩) :=
  ⟨rfl,
    (pdf_read_table_error {} "doc.pdf".data
      [⟨some "hi".data, Except.error "boom".data⟩] 0
      ⟨some "hi".data, Except.error "boom".data⟩ "boom".data rfl rfl).2⟩
